import Mathlib

/-!
Verification of the option-documentation generator
(`scripts/generate-option-documentation.py`).

The script is embedded shallowly: a text line is a `List Char`, Python string
primitives (`strip`, `split`, `replace`, `find`) are translated one-to-one,
and the two algorithmic functions `justify_to_length` / `split_line_to_length`
together with the parse loop and the rendering loop are translated directly
from the source.  Python code that can raise (`ZeroDivisionError` from
`words[i % len(words)]` with `len(words) = 0`) or recurse forever is modelled
with `Option` / fuel; the fuel bounds are one more than the recursion depth
the code can reach, so a `none` from exhausted fuel corresponds exactly to a
non-terminating run of the script.
-/

namespace NapSATDoc

/-- Characters removed by Python's `str.strip()` at both ends. -/
def isWS (c : Char) : Bool := c == ' ' || c == '\t' || c == '\n' || c == '\r'

/-- Python `line.strip()`. -/
def strip (l : List Char) : List Char :=
  ((l.dropWhile isWS).reverse.dropWhile isWS).reverse

/-- Python `line.find(sub) != -1`: substring occurrence test. -/
def containsSub (sub : List Char) : List Char → Bool
  | [] => sub.isPrefixOf []
  | c :: cs => sub.isPrefixOf (c :: cs) || containsSub sub cs

/-- Python `s.split(sep)` for a non-empty separator, scanning left to right and
keeping empty pieces.  The fuel only needs to exceed `s.length`: every
recursive call is on a strictly shorter list, so with the fuel used by
`splitOn` the first equation is never reached. -/
def splitOnGo (sep : List Char) : Nat → List Char → List (List Char)
  | 0, _ => [[]]
  | _ + 1, [] => [[]]
  | fuel + 1, c :: cs =>
    if sep.isPrefixOf (c :: cs) && !sep.isEmpty then
      [] :: splitOnGo sep fuel ((c :: cs).drop sep.length)
    else
      match splitOnGo sep fuel cs with
      | [] => [[c]]
      | w :: ws => (c :: w) :: ws

/-- Python `s.split(sep)`. -/
def splitOn (sep l : List Char) : List (List Char) := splitOnGo sep (l.length + 1) l

/-- Python `s.replace(old, new)`: replace every non-overlapping occurrence,
left to right.  Fuel as in `splitOnGo`. -/
def replaceAllGo (sep new : List Char) : Nat → List Char → List Char
  | 0, l => l
  | _ + 1, [] => []
  | fuel + 1, c :: cs =>
    if sep.isPrefixOf (c :: cs) && !sep.isEmpty then
      new ++ replaceAllGo sep new fuel ((c :: cs).drop sep.length)
    else
      c :: replaceAllGo sep new fuel cs

/-- Python `s.replace(old, new)`. -/
def replaceAll (sep new l : List Char) : List Char :=
  replaceAllGo sep new (l.length + 1) l

/-- The loop `while line.find("  ") != -1: line = line.replace("  ", " ")` at
the head of `justify_to_length`.  Each executed replacement shortens the line
by at least one character, so `l.length` rounds of fuel are enough for the
loop to reach its exit condition. -/
def rdsGo : Nat → List Char → List Char
  | 0, l => l
  | fuel + 1, l =>
    if containsSub [' ', ' '] l then rdsGo fuel (replaceAll [' ', ' '] [' '] l) else l

/-- The double-space-collapsing loop of `justify_to_length`. -/
def removeDoubleSpaces (l : List Char) : List Char := rdsGo l.length l

/-- `set.add`: Python set insertion, modelled as a duplicate-free list. -/
def addToSet (s : List (List Char)) (w : List Char) : List (List Char) :=
  if w ∈ s then s else s ++ [w]

/-- One insertion step of the stable descending-by-length sort
`sorted(words, key=lambda x: len(x), reverse=True)`: an element is placed
after every strictly longer element and before ties, which is exactly the
stable order Python produces. -/
def insertDesc (w : List Char) : List (List Char) → List (List Char)
  | [] => [w]
  | x :: xs => if w.length < x.length then x :: insertDesc w xs else w :: x :: xs

/-- Stable sort by descending length. -/
def sortDesc : List (List Char) → List (List Char)
  | [] => []
  | w :: ws => insertDesc w (sortDesc ws)

/-- The reassembly loop of `justify_to_length`: each word of the line gets two
trailing spaces if it is in the chosen set (which then drops it) and one
otherwise. -/
def reassemble : List (List Char) → List (List Char) → List Char
  | [], _ => []
  | p :: ps, s =>
    if p ∈ s then p ++ [' ', ' '] ++ reassemble ps (s.erase p)
    else p ++ [' '] ++ reassemble ps s

/-- The loop `for i in range(deficit): longest_words.add(words[i % len(words)])`
selects these words (in this order) from the sorted list. -/
def selections (sorted : List (List Char)) (deficit : Nat) : List (List Char) :=
  (List.range deficit).map (fun i => sorted.getD (i % sorted.length) [])

/-- `justify_to_length(line, length)`.  `none` models the `ZeroDivisionError`
raised by `words[i % len(words)]` when the collapsed line consists of a single
word (the deficit is at least 1 in that branch, so the loop body always
runs). -/
def justify_to_length (line0 : List Char) (length : Nat) : Option (List Char) :=
  -- `line` is the collapsed line, `number_of_words = len(line.split(" "))`,
  -- `words = line.split(" ")[:-1]` sorted by descending length; the locals of
  -- the source are substituted inline.
  if length ≤ (removeDoubleSpaces line0).length then some (removeDoubleSpaces line0)
  else if (splitOn [' '] (removeDoubleSpaces line0)).length <
      length - (removeDoubleSpaces line0).length then some (removeDoubleSpaces line0)
  else if ((splitOn [' '] (removeDoubleSpaces line0)).dropLast).isEmpty then none
  else
    some ((reassemble (splitOn [' '] (removeDoubleSpaces line0))
      ((selections (sortDesc ((splitOn [' '] (removeDoubleSpaces line0)).dropLast))
        (length - (removeDoubleSpaces line0).length)).foldl addToSet [])).dropLast)

/-- Whether `justify_to_length` prints "Warning: line is too long to be
justified" (the only diagnostic it has). -/
def justify_warns (line0 : List Char) (length : Nat) : Bool :=
  length ≤ (removeDoubleSpaces line0).length

/-- Python `line[:k].rfind(" ")` yields the last index of a space, here as an
`Option Nat` instead of `-1` for absence. -/
def rfindSpace : List Char → Option Nat
  | [] => none
  | c :: cs =>
    match rfindSpace cs with
    | some k => some (k + 1)
    | none => if c == ' ' then some 0 else none

/-- `split_line_to_length(line, length, tab_length)` with explicit fuel.
The outer `none` is exhausted fuel; `some none` propagates the
`ZeroDivisionError` that `justify_to_length` can raise on a chosen prefix.
When `tab < length` every recursive call strictly shortens the line, so the
`line.length + 1` fuel supplied by `split_line_to_length` cannot run out. -/
def split_go (length tab : Nat) : Nat → List Char → Option (Option (List Char))
  | 0, _ => none
  | fuel + 1, line =>
    if line.length ≤ length - tab then some (some (List.replicate tab ' ' ++ line))
    else
      match rfindSpace (line.take (length - tab)) with
      | none =>
        match split_go length tab fuel (line.drop (length - tab)) with
        | none => none
        | some none => some none
        | some (some rest) =>
          some (some (List.replicate tab ' ' ++ line.take (length - tab) ++ '\n' :: rest))
      | some last_space =>
        match justify_to_length (line.take last_space) (length - tab) with
        | none => some none
        | some j =>
          match split_go length tab fuel (line.drop (last_space + 1)) with
          | none => none
          | some none => some none
          | some (some rest) => some (some (List.replicate tab ' ' ++ j ++ '\n' :: rest))

/-- `split_line_to_length(line, length, tab_length)`. -/
def split_line_to_length (line : List Char) (length tab : Nat) : Option (Option (List Char)) :=
  split_go length tab (line.length + 1) line

/-! ### The parse loop -/

/-- One row of the dataframe: the nine columns, each initialised to "". -/
structure DocRecord where
  category : List Char
  option : List Char
  aliasF : List Char
  typ : List Char
  dflt : List Char
  description : List Char
  requiresF : List Char
  subsumedBy : List Char
  warningF : List Char
deriving DecidableEq

def emptyRec : DocRecord := ⟨[], [], [], [], [], [], [], [], []⟩

/-- The loop state of the parse loop: `currentCategory`, `currentTag`,
`currentTagValue`, `document`, and the dataframe. -/
structure PState where
  category : List Char
  tag : List Char
  tagValue : List Char
  document : Bool
  table : List DocRecord
deriving DecidableEq

def initState : PState := ⟨[], [], [], false, []⟩

/-- `dataframe.loc[len(dataframe) - 1, col] = v`: mutate the last row.
`loc[-1]` on an empty frame is not exercised by any documented input and is
modelled as a no-op. -/
def updateLast (f : DocRecord → DocRecord) : List DocRecord → List DocRecord
  | [] => []
  | [r] => [f r]
  | r :: rs => r :: updateLast f rs

/-- The `tagToColumn` dictionary applied to a committed tag value; an unknown
tag only prints a warning and changes nothing. -/
def applyTag (tag val : List Char) (t : List DocRecord) : List DocRecord :=
  if tag = ("@brief").toList then updateLast (fun r => { r with description := val }) t
  else if tag = ("@alias").toList then updateLast (fun r => { r with aliasF := val }) t
  else if tag = ("@requires").toList then updateLast (fun r => { r with requiresF := val }) t
  else if tag = ("@subsumed").toList then updateLast (fun r => { r with subsumedBy := val }) t
  else if tag = ("@warning").toList then updateLast (fun r => { r with warningF := val }) t
  else if tag = ("@default").toList then updateLast (fun r => { r with dflt := val }) t
  else t

/-- `if currentTagValue != "": ... commit ...` (tag and value are reset by the
callers, as in the source). -/
def flushTag (s : PState) : PState :=
  if s.tagValue = [] then s
  else { s with table := applyTag s.tag s.tagValue s.table }

/-- The category text of a line that carries both `/**` and `**/`, if any:
`line.split("/**")[1].split("**/")[0].strip()`. -/
def lineCategory (raw : List Char) : Option (List Char) :=
  let line := strip raw
  if containsSub (("/**").toList) line && containsSub (("**/").toList) line then
    some (strip ((splitOn (("**/").toList) ((splitOn (("/**").toList) line).getD 1 [])).getD 0 []))
  else none

/-- One iteration of the parse loop (`for line in lines`), faithful to the
branch order of the source.  Note that after the `*`-comment-body branch the
source does not `continue`, so the `bool` / `double` / `std::string`
declaration checks still run on the same line. -/
def step (s : PState) (raw : List Char) : PState :=
  let line := strip raw
  match lineCategory raw with
  | some cat =>
    let doc := if cat = ("Stop Documentation").toList then false
               else if cat = ("Start Documentation").toList then true
               else s.document
    { s with category := cat, document := doc }
  | none =>
    if !s.document then s
    else if containsSub (("/**").toList) line then { s with table := s.table ++ [emptyRec] }
    else if containsSub (("*/").toList) line then
      { flushTag s with tag := [], tagValue := [] }
    else
      let s1 :=
        if containsSub ['*'] line then
          if containsSub ['@'] line then
            let s' := flushTag s
            let after := (splitOn ['@'] line).getD 1 []
            let tks := splitOn [' '] after
            { s' with tag := '@' :: strip (tks.getD 0 []),
                      tagValue := strip ((tks.drop 1).foldl (fun acc w => acc ++ w ++ [' ']) []) }
          else { s with tagValue := s.tagValue ++ ' ' :: strip ((splitOn ['*'] line).getD 1 []) }
        else s
      if containsSub (("bool").toList) line then
        let s2 := { s1 with table := updateLast (fun r => { r with typ := ("bool").toList }) s1.table }
        let s3 :=
          if containsSub ['='] line then
            let opt := '-' :: '-' :: replaceAll ['_'] ['-']
              (strip ((splitOn ['='] ((splitOn (("bool").toList) line).getD 1 [])).getD 0 []))
            let dv := replaceAll (("false").toList) (("off").toList)
              (replaceAll (("true").toList) (("on").toList)
                (strip ((splitOn [';'] ((splitOn ['='] line).getD 1 [])).getD 0 [])))
            { s2 with table := updateLast (fun r => { r with option := opt, dflt := dv }) s2.table }
          else
            let opt := '-' :: '-' :: replaceAll ['_'] ['-']
              (strip ((splitOn [';'] ((splitOn (("bool").toList) line).getD 1 [])).getD 0 []))
            { s2 with table := updateLast (fun r => { r with option := opt }) s2.table }
        { s3 with table := updateLast (fun r => { r with category := s.category }) s3.table }
      else if containsSub (("double").toList) line then
        let s2 := { s1 with table := updateLast (fun r => { r with typ := ("double").toList }) s1.table }
        let opt := '-' :: '-' :: replaceAll ['_'] ['-']
          (strip ((splitOn ['='] ((splitOn (("double").toList) line).getD 1 [])).getD 0 []))
        let dv := strip ((splitOn [';'] ((splitOn ['='] line).getD 1 [])).getD 0 [])
        let s3 := { s2 with table := updateLast (fun r => { r with option := opt, dflt := dv }) s2.table }
        { s3 with table := updateLast (fun r => { r with category := s.category }) s3.table }
      else if containsSub (("std::string").toList) line then
        let s2 := { s1 with table := updateLast (fun r => { r with typ := ("string").toList }) s1.table }
        let opt := '-' :: '-' :: replaceAll ['_'] ['-']
          (strip ((splitOn ['='] ((splitOn (("std::string").toList) line).getD 1 [])).getD 0 []))
        let s3 := { s2 with table := updateLast (fun r => { r with option := opt }) s2.table }
        let s4 :=
          if containsSub ['='] line then
            let dv := strip ((splitOn [';'] ((splitOn ['='] line).getD 1 [])).getD 0 [])
            { s3 with table := updateLast (fun r => { r with dflt := dv }) s3.table }
          else s3
        { s4 with table := updateLast (fun r => { r with category := s.category }) s4.table }
      else s1

/-- The whole parse loop over the input lines. -/
def parseLines (ls : List (List Char)) : PState := ls.foldl step initState

/-! ### The output loop -/

/-- The category banner built when a record's category differs from the last
emitted one.  `pading = int((max_length - total_length - 2) / 2)` with
`max_length = 100`; for names longer than 98 characters Python's negative
`pading` makes `"*" * pading` empty, which truncated `Nat` subtraction
reproduces. -/
def banner (cat : List Char) : List Char :=
  let pading := (100 - cat.length - 2) / 2
  let s := List.replicate pading '*' ++ ' ' :: cat ++ ' ' :: List.replicate pading '*'
  if s.length < 100 - 2 then s ++ ['*'] else s

/-- One wrapped field paragraph: `split_line_to_length(v, 100, 4) + "\n"`.
`none` when the wrapper does not return normally. -/
def fieldOut (labeled : List Char) : Option (List Char) :=
  match split_line_to_length labeled 100 4 with
  | some (some s) => some (s ++ ['\n'])
  | _ => none

/-- One column of the per-record field loop: skipped when empty, prefixed with
`column + ": "` unless it is the description. -/
def fieldBlock (label : List Char) (isDesc : Bool) (v : List Char) : Option (List Char) :=
  if v = [] then some []
  else fieldOut (if isDesc then v else label ++ ':' :: ' ' :: v)

/-- `option_string` for one record: the option/alias/type/default line plus
the four field paragraphs in column order. -/
def recBody (r : DocRecord) : Option (List Char) := do
  let opt := List.replicate 2 ' '
      ++ (if r.aliasF ≠ [] then r.aliasF ++ (" or ").toList else [])
      ++ r.option
      ++ (if r.typ ≠ [] then (" <").toList ++ r.typ ++ (" = ").toList ++ r.dflt ++ ['>'] else [])
      ++ ['\n']
  let d ← fieldBlock [] true r.description
  let q ← fieldBlock (("Requires").toList) false r.requiresF
  let sb ← fieldBlock (("Subsumed by").toList) false r.subsumedBy
  let w ← fieldBlock (("Warning").toList) false r.warningF
  return opt ++ d ++ q ++ sb ++ w

/-- The output loop over the dataframe rows: banner on category change, then
the record body, a blank separator line, and after the final record the
100-star rule. -/
def renderLoop (lastCat : List Char) : List DocRecord → Option (List Char)
  | [] => some []
  | r :: rs =>
    let bannerPart := if r.category ≠ lastCat then banner r.category ++ ['\n'] else []
    match recBody r, rs with
    | none, _ => none
    | some body, [] => some (bannerPart ++ body ++ '\n' :: List.replicate 100 '*' ++ ['\n'])
    | some body, _ :: _ =>
      match renderLoop r.category rs with
      | none => none
      | some rest => some (bannerPart ++ body ++ '\n' :: rest)

/-- The whole output pass: the static header, a newline, then the record
loop. -/
def render (header : List Char) (t : List DocRecord) : Option (List Char) :=
  (renderLoop [] t).map (fun out => header ++ '\n' :: out)

/-! ### Word decompositions used by the stated properties -/

/-- Splitting at every character satisfying `p`, keeping empty pieces (the
predicate-level counterpart of `splitOn` for a single separator). -/
def splitS (p : Char → Bool) : List Char → List (List Char)
  | [] => [[]]
  | c :: cs =>
    if p c then [] :: splitS p cs
    else (c :: (splitS p cs).headI) :: (splitS p cs).tail

/-- The maximal runs of non-separator characters. -/
def wordsS (p : Char → Bool) (l : List Char) : List (List Char) :=
  (splitS p l).filter (fun w => !w.isEmpty)

/-- The words of a line: maximal non-space substrings, in order. -/
def wordsOf (l : List Char) : List (List Char) := wordsS (fun c => c == ' ') l

/-- The words of a wrapped text, treating line breaks like spaces. -/
def wordsNL (l : List Char) : List (List Char) :=
  wordsS (fun c => c == ' ' || c == '\n') l

/-- Modelled from the claim's wording for C10: reassembly that puts the one
extra space after the *first* occurrence of each selected word value,
regardless of which occurrence the wraparound selection chose.  Used as the
specification-side description to compare `reassemble` against. -/
def padFirstOcc (sel : List (List Char)) : List (List Char) → List (List Char) → List Char
  | _, [] => []
  | seen, p :: ps =>
    p ++ (if p ∈ sel ∧ p ∉ seen then [' ', ' '] else [' ']) ++ padFirstOcc sel (p :: seen) ps

/-- The input of the documented scenario: a `@brief`-tagged comment block for a
boolean option under category "General", with the documentation gate on. -/
def scenarioInput : List (List Char) :=
  [("/** Start Documentation **/").toList,
   ("/** General **/").toList,
   ("/**").toList,
   (" * @brief Enable caching.").toList,
   (" */").toList,
   ("bool use_cache = true;").toList]

/-! ### Helper lemmas -/

/-- The first guard of `justify_to_length`: a line whose collapsed form already
reaches the requested width is returned in collapsed form (with the "too long"
diagnostic). -/
theorem justify_warn_branch (line : List Char) (len : Nat)
    (h : len ≤ (removeDoubleSpaces line).length) :
    justify_to_length line len = some (removeDoubleSpaces line) := by
  unfold justify_to_length
  simp only [if_pos h]

/-- A parse-loop step taken while the gate is off neither touches the table nor
turns the gate on, unless the line is a "Start Documentation" marker. -/
theorem step_gate_off (s : PState) (raw : List Char)
    (hdoc : s.document = false)
    (hstart : lineCategory raw ≠ some (("Start Documentation").toList)) :
    (step s raw).table = s.table ∧ (step s raw).document = false := by
  unfold step
  cases h : lineCategory raw with
  | none => simp [hdoc]
  | some cat =>
    have hne : cat ≠ ("Start Documentation").toList := by
      intro hh
      exact hstart (hh ▸ h)
    refine ⟨rfl, ?_⟩
    by_cases hstop : cat = ("Stop Documentation").toList
    · simp [hstop]
    · show (if _ then _ else _) = false
      rw [if_neg hstop, if_neg hne]
      exact hdoc

/-! ### The claims -/

/-- C2: the category banner is *not* 100 characters wide for the category name
"General": the `if len(category_string) < max_length - 2` fix-up that should
append the leftover `*` compares against 98 while the banner is always at
least 99 characters, so it never fires and odd-parity names yield a
99-character banner. -/
theorem banner_general_length_99 : (banner (("General").toList)).length = 99 := by decide

/-- C5 counterexample: a line longer than the target width that is *not*
returned unchanged and does *not* trigger the "too long" diagnostic, because
the double-space collapse shrinks it below the target first. -/
theorem justify_too_long_cex :
    4 < (("a      b").toList).length ∧
    justify_to_length (("a      b").toList) 4 ≠ some (("a      b").toList) ∧
    justify_warns (("a      b").toList) 4 = false := by decide

/-- C5 (amended): when the *collapsed* line already reaches the target width,
`justify_to_length` emits the diagnostic and returns the collapsed line — the
original line character for character whenever it has no repeated spaces. -/
theorem justify_too_long_returns_collapsed (line : List Char) (len : Nat)
    (h : len ≤ (removeDoubleSpaces line).length) :
    justify_to_length line len = some (removeDoubleSpaces line) ∧
    justify_warns line len = true :=
  ⟨justify_warn_branch line len h, decide_eq_true h⟩

/-- C5 witness. -/
theorem justify_too_long_returns_collapsed_witness :
    4 ≤ (removeDoubleSpaces (("abc d").toList)).length ∧
    (justify_to_length (("abc d").toList) 4 = some (removeDoubleSpaces (("abc d").toList)) ∧
      justify_warns (("abc d").toList) 4 = true) :=
  ⟨by decide, justify_too_long_returns_collapsed (("abc d").toList) 4 (by decide)⟩

/-- C9 counterexample: a line of exactly the target width (7) that is changed
by `justify_to_length`: its double space is collapsed and the freed character
is re-inserted after the longest word instead. -/
theorem justify_exact_width_cex :
    (("aa b  c").toList).length = 7 ∧
    justify_to_length (("aa b  c").toList) 7 = some (("aa  b c").toList) ∧
    ("aa  b c").toList ≠ ("aa b  c").toList := by decide

/-- C9 (amended): justification is the identity on lines of exactly the target
width that contain no repeated spaces. -/
theorem justify_exact_width_collapse_free (line : List Char) (len : Nat)
    (hc : removeDoubleSpaces line = line) (hlen : line.length = len) :
    justify_to_length line len = some line := by
  have h : len ≤ (removeDoubleSpaces line).length := by rw [hc, hlen]
  rw [justify_warn_branch line len h, hc]

/-- C9 witness. -/
theorem justify_exact_width_collapse_free_witness :
    (removeDoubleSpaces (("ab c").toList) = ("ab c").toList ∧ (("ab c").toList).length = 4) ∧
    justify_to_length (("ab c").toList) 4 = some (("ab c").toList) :=
  ⟨by decide, justify_exact_width_collapse_free (("ab c").toList) 4 (by decide) (by decide)⟩

/-- C6: while the documenting gate is off, processing any lines that do not
carry a "Start Documentation" category marker leaves the record table
untouched (and the gate off). -/
theorem gate_off_table_unchanged (s : PState) (ls : List (List Char))
    (hdoc : s.document = false)
    (hstart : ∀ raw ∈ ls, lineCategory raw ≠ some (("Start Documentation").toList)) :
    (ls.foldl step s).table = s.table ∧ (ls.foldl step s).document = false := by
  induction ls generalizing s with
  | nil => exact ⟨rfl, hdoc⟩
  | cons raw rest ih =>
    have h1 := step_gate_off s raw hdoc (hstart raw (by simp))
    have h2 := ih (step s raw) h1.2 (fun r hr => hstart r (by simp [hr]))
    exact ⟨h2.1.trans h1.1, h2.2⟩

/-- C6 witness: with the gate off, a full comment block followed by a `bool`
declaration produces no record. -/
theorem gate_off_table_unchanged_witness :
    ((⟨("X").toList, [], [], false, []⟩ : PState).document = false ∧
      (∀ raw ∈ [("/**").toList, (" * @brief hidden").toList, (" */").toList,
          ("bool a_b = true;").toList],
        lineCategory raw ≠ some (("Start Documentation").toList))) ∧
    (([("/**").toList, (" * @brief hidden").toList, (" */").toList,
        ("bool a_b = true;").toList].foldl step
          (⟨("X").toList, [], [], false, []⟩ : PState)).table =
        (⟨("X").toList, [], [], false, []⟩ : PState).table ∧
      ([("/**").toList, (" * @brief hidden").toList, (" */").toList,
        ("bool a_b = true;").toList].foldl step
          (⟨("X").toList, [], [], false, []⟩ : PState)).document = false) :=
  ⟨⟨by decide, by decide⟩,
    gate_off_table_unchanged (⟨("X").toList, [], [], false, []⟩ : PState)
      [("/**").toList, (" * @brief hidden").toList, (" */").toList,
        ("bool a_b = true;").toList] (by decide) (by decide)⟩

/-- C3: on the documented scenario input the rendered output contains the
"General" banner, then the option line `  --use-cache <bool = on>`, then the
wrapped description line containing "Enable caching.", contiguously. -/
theorem scenario_use_cache_output :
    (render [] (parseLines scenarioInput).table).isSome = true ∧
    containsSub
      (banner (("General").toList) ++
        '\n' :: (("  --use-cache <bool = on>\n    Enable caching.\n").toList))
      ((render [] (parseLines scenarioInput).table).getD []) = true := by decide

/-! ### Lemmas about `splitS` and the `splitOn`/`splitS` bridge -/

theorem splitS_ne_nil (p : Char → Bool) (l : List Char) : splitS p l ≠ [] := by
  cases l with
  | nil => simp [splitS]
  | cons c cs =>
    unfold splitS
    split <;> simp

theorem cons_headI_tail {α : Type} [Inhabited α] {l : List α} (h : l ≠ []) :
    l.headI :: l.tail = l := by
  cases l with
  | nil => exact absurd rfl h
  | cons a as => rfl

theorem headI_mem_of_ne_nil {α : Type} [Inhabited α] {l : List α} (h : l ≠ []) :
    l.headI ∈ l := by
  cases l with
  | nil => exact absurd rfl h
  | cons a as => simp [List.headI]

theorem splitS_cons_sep {p : Char → Bool} {c : Char} (h : p c = true) (l : List Char) :
    splitS p (c :: l) = [] :: splitS p l := by
  simp only [splitS]
  rw [if_pos h]

theorem splitS_cons_nonsep {p : Char → Bool} {c : Char} (h : p c = false) (l : List Char) :
    splitS p (c :: l) = (c :: (splitS p l).headI) :: (splitS p l).tail := by
  simp only [splitS]
  rw [if_neg (by simp [h])]

theorem splitS_append_sep {p : Char → Bool} {c : Char} (h : p c = true) (a b : List Char) :
    splitS p (a ++ c :: b) = splitS p a ++ splitS p b := by
  induction a with
  | nil =>
    rw [List.nil_append, splitS_cons_sep h]
    rfl
  | cons x a' ih =>
    by_cases hx : p x = true
    · rw [List.cons_append, splitS_cons_sep hx, splitS_cons_sep hx, ih, List.cons_append]
    · have hx' : p x = false := by simpa using hx
      rw [List.cons_append, splitS_cons_nonsep hx', splitS_cons_nonsep hx', ih]
      cases h' : splitS p a' with
      | nil => exact absurd h' (splitS_ne_nil p a')
      | cons w ws => simp

theorem splitS_sepFree {p : Char → Bool} {a : List Char} (h : ∀ x ∈ a, p x = false) :
    splitS p a = [a] := by
  induction a with
  | nil => rfl
  | cons x a' ih =>
    rw [splitS_cons_nonsep (h x (by simp)), ih (fun y hy => h y (by simp [hy]))]
    simp [List.headI]

theorem splitS_congr {p q : Char → Bool} {l : List Char} (h : ∀ x ∈ l, p x = q x) :
    splitS p l = splitS q l := by
  induction l with
  | nil => rfl
  | cons c cs ih =>
    have hc := h c (by simp)
    have ih' := ih (fun y hy => h y (by simp [hy]))
    by_cases hp : p c = true
    · rw [splitS_cons_sep hp, splitS_cons_sep (hc ▸ hp), ih']
    · have hp' : p c = false := by simpa using hp
      rw [splitS_cons_nonsep hp', splitS_cons_nonsep (hc ▸ hp'), ih']

theorem splitS_pieces_sepFree {p : Char → Bool} {l : List Char} :
    ∀ w ∈ splitS p l, ∀ x ∈ w, p x = false := by
  induction l with
  | nil =>
    intro w hw x hx
    simp [splitS] at hw
    subst hw
    simp at hx
  | cons c cs ih =>
    by_cases hp : p c = true
    · rw [splitS_cons_sep hp]
      intro w hw x hx
      rcases List.mem_cons.1 hw with h1 | h2
      · subst h1; simp at hx
      · exact ih w h2 x hx
    · have hp' : p c = false := by simpa using hp
      rw [splitS_cons_nonsep hp']
      intro w hw x hx
      rcases List.mem_cons.1 hw with h1 | h2
      · subst h1
        rcases List.mem_cons.1 hx with rfl | hx'
        · exact hp'
        · exact ih _ (headI_mem_of_ne_nil (splitS_ne_nil p cs)) x hx'
      · exact ih w (List.mem_of_mem_tail h2) x hx

theorem splitS_length_sum (p : Char → Bool) (l : List Char) :
    ((splitS p l).map List.length).sum + (splitS p l).length = l.length + 1 := by
  induction l with
  | nil => rfl
  | cons c cs ih =>
    by_cases hp : p c = true
    · rw [splitS_cons_sep hp]
      simp only [List.map_cons, List.sum_cons, List.length_cons, List.length_nil] at ih ⊢
      omega
    · have hp' : p c = false := by simpa using hp
      rw [splitS_cons_nonsep hp']
      cases h' : splitS p cs with
      | nil => exact absurd h' (splitS_ne_nil p cs)
      | cons w ws =>
        rw [h'] at ih
        simp only [List.map_cons, List.sum_cons, List.length_cons, List.headI,
          List.tail_cons] at ih ⊢
        omega

theorem splitOnGo_singleton (c : Char) :
    ∀ (fuel : Nat) (l : List Char), l.length < fuel →
      splitOnGo [c] fuel l = splitS (fun x => x == c) l := by
  intro fuel
  induction fuel with
  | zero => intro l h; exact absurd h (Nat.not_lt_zero _)
  | succ f ih =>
    intro l h
    cases l with
    | nil => rfl
    | cons x xs =>
      unfold splitOnGo
      have hcond : ([c].isPrefixOf (x :: xs) && !(List.isEmpty [c])) = (x == c) := by
        by_cases hx : x = c
        · subst hx
          simp [List.isPrefixOf]
        · have h1 : (c == x) = false := by simp [Ne.symm hx]
          have h2 : (x == c) = false := by simp [hx]
          simp [List.isPrefixOf, h1, h2]
      rw [hcond]
      have hlen : xs.length < f := by
        simpa using Nat.lt_of_succ_lt_succ h
      by_cases hx : (x == c) = true
      · rw [if_pos hx, @splitS_cons_sep (fun y => y == c) x hx xs]
        simp only [List.length_singleton, List.drop_succ_cons, List.drop_zero]
        rw [ih xs hlen]
      · have hx' : (x == c) = false := by simpa using hx
        rw [if_neg (by simp [hx']), @splitS_cons_nonsep (fun y => y == c) x hx' xs, ih xs hlen]
        cases h' : splitS (fun y => y == c) xs with
        | nil => exact absurd h' (splitS_ne_nil _ xs)
        | cons w ws => rfl

theorem splitOn_space (l : List Char) :
    splitOn [' '] l = splitS (fun x => x == ' ') l :=
  splitOnGo_singleton ' ' (l.length + 1) l (Nat.lt_succ_self _)

/-! ### Lemmas about the sort, the set, and the selections -/

theorem mem_insertDesc {x w : List Char} {l : List (List Char)} :
    x ∈ insertDesc w l ↔ x = w ∨ x ∈ l := by
  induction l with
  | nil => simp [insertDesc]
  | cons y ys ih =>
    unfold insertDesc
    split
    · simp only [List.mem_cons, ih]
      tauto
    · simp [List.mem_cons]

theorem length_insertDesc (w : List Char) (l : List (List Char)) :
    (insertDesc w l).length = l.length + 1 := by
  induction l with
  | nil => rfl
  | cons y ys ih =>
    unfold insertDesc
    split
    · simp [ih]
    · simp

theorem mem_sortDesc {x : List Char} {l : List (List Char)} (h : x ∈ sortDesc l) : x ∈ l := by
  induction l with
  | nil => simp [sortDesc] at h
  | cons w ws ih =>
    unfold sortDesc at h
    rcases mem_insertDesc.1 h with rfl | h'
    · simp
    · simp [ih h']

theorem length_sortDesc (l : List (List Char)) : (sortDesc l).length = l.length := by
  induction l with
  | nil => rfl
  | cons w ws ih => simp [sortDesc, length_insertDesc, ih]

theorem mem_foldl_addToSet (L : List (List Char)) :
    ∀ (acc : List (List Char)) (w : List Char),
      w ∈ L.foldl addToSet acc ↔ w ∈ acc ∨ w ∈ L := by
  induction L with
  | nil => simp
  | cons x L' ih =>
    intro acc w
    rw [List.foldl_cons, ih]
    unfold addToSet
    split
    · case isTrue hmem =>
      constructor
      · intro h
        rcases h with h | h
        · exact Or.inl h
        · exact Or.inr (by simp [h])
      · rintro (h | h)
        · exact Or.inl h
        · rcases List.mem_cons.1 h with rfl | h'
          · exact Or.inl hmem
          · exact Or.inr h'
    · simp only [List.mem_append, List.mem_singleton, List.mem_cons]
      tauto

theorem nodup_foldl_addToSet (L : List (List Char)) :
    ∀ acc : List (List Char), acc.Nodup → (L.foldl addToSet acc).Nodup := by
  induction L with
  | nil => intro acc h; exact h
  | cons x L' ih =>
    intro acc h
    rw [List.foldl_cons]
    apply ih
    unfold addToSet
    split
    · exact h
    · case isFalse hx => simp [List.nodup_append, h, hx]

theorem foldl_addToSet_of_nodup :
    ∀ (L acc : List (List Char)), L.Nodup → (∀ w ∈ L, w ∉ acc) →
      L.foldl addToSet acc = acc ++ L := by
  intro L
  induction L with
  | nil => simp
  | cons x L' ih =>
    intro acc hnd hdisj
    rw [List.foldl_cons,
      show addToSet acc x = acc ++ [x] from by
        unfold addToSet
        rw [if_neg (hdisj x (by simp))],
      ih (acc ++ [x]) (List.nodup_cons.1 hnd).2 ?_]
    · simp
    · intro w hw
      simp only [List.mem_append, List.mem_singleton]
      rintro (h | h)
      · exact hdisj w (by simp [hw]) h
      · exact (List.nodup_cons.1 hnd).1 (h ▸ hw)

theorem length_selections (sorted : List (List Char)) (d : Nat) :
    (selections sorted d).length = d := by
  simp [selections]

theorem mem_selections {sorted : List (List Char)} (hne : sorted ≠ [])
    {d : Nat} {w : List Char} (h : w ∈ selections sorted d) : w ∈ sorted := by
  simp only [selections, List.mem_map, List.mem_range] at h
  obtain ⟨i, _, rfl⟩ := h
  have hlen : 0 < sorted.length := List.length_pos.2 hne
  rw [List.getD_eq_getElem _ _ (Nat.mod_lt _ hlen)]
  exact List.getElem_mem _

/-! ### The length of the reassembled line -/

theorem reassemble_length :
    ∀ (ps S : List (List Char)), S.Nodup → (∀ w ∈ S, w ∈ ps) →
      (reassemble ps S).length = (ps.map List.length).sum + ps.length + S.length := by
  intro ps
  induction ps with
  | nil =>
    intro S _ hsub
    have hS : S = [] := by
      cases S with
      | nil => rfl
      | cons a b => exact absurd (hsub a (by simp)) (by simp)
    subst hS
    rfl
  | cons p ps' ih =>
    intro S hnd hsub
    unfold reassemble
    split
    · case isTrue hp =>
      have h1 : (S.erase p).Nodup := hnd.erase p
      have h2 : ∀ w ∈ S.erase p, w ∈ ps' := by
        intro w hw
        rcases (List.Nodup.mem_erase_iff hnd).1 hw with ⟨hne, hwS⟩
        rcases List.mem_cons.1 (hsub w hwS) with rfl | h
        · exact absurd rfl hne
        · exact h
      have hlenE : (S.erase p).length = S.length - 1 := List.length_erase_of_mem hp
      have hS : 1 ≤ S.length := List.length_pos.2 (by rintro rfl; simp at hp)
      simp only [List.length_append, List.length_cons, List.length_nil,
        ih _ h1 h2, hlenE, List.map_cons, List.sum_cons]
      omega
    · case isFalse hp =>
      have h2 : ∀ w ∈ S, w ∈ ps' := by
        intro w hw
        rcases List.mem_cons.1 (hsub w hw) with rfl | h
        · exact absurd hw hp
        · exact h
      simp only [List.length_append, List.length_cons, List.length_nil,
        ih S hnd h2, List.map_cons, List.sum_cons]
      omega

/-- The padding branch of `justify_to_length`, as one equation. -/
theorem justify_pad_branch (line : List Char) (len : Nat)
    (hlt : (removeDoubleSpaces line).length < len)
    (hge : ¬ (splitOn [' '] (removeDoubleSpaces line)).length <
      len - (removeDoubleSpaces line).length)
    (hw : (splitOn [' '] (removeDoubleSpaces line)).dropLast ≠ []) :
    justify_to_length line len =
      some ((reassemble (splitOn [' '] (removeDoubleSpaces line))
        ((selections (sortDesc ((splitOn [' '] (removeDoubleSpaces line)).dropLast))
          (len - (removeDoubleSpaces line).length)).foldl addToSet [])).dropLast) := by
  unfold justify_to_length
  rw [if_neg (by omega), if_neg hge,
    if_neg (by intro hE; exact hw (List.isEmpty_iff.1 hE))]

/-- Every member of the chosen set is a piece of the collapsed line. -/
theorem pad_set_sub (line : List Char) (len : Nat)
    (hw : (splitOn [' '] (removeDoubleSpaces line)).dropLast ≠ []) :
    ∀ w ∈ (selections (sortDesc ((splitOn [' '] (removeDoubleSpaces line)).dropLast))
        (len - (removeDoubleSpaces line).length)).foldl addToSet [],
      w ∈ splitOn [' '] (removeDoubleSpaces line) := by
  intro w hwS
  rcases (mem_foldl_addToSet _ [] w).1 hwS with h | h
  · simp at h
  · have hsortne : sortDesc ((splitOn [' '] (removeDoubleSpaces line)).dropLast) ≠ [] := by
      intro he
      apply hw
      have hL := length_sortDesc ((splitOn [' '] (removeDoubleSpaces line)).dropLast)
      rw [he] at hL
      exact List.length_eq_zero.1 hL.symm
    exact List.dropLast_subset _ (mem_sortDesc (mem_selections hsortne h))

/-- C1 counterexample: `"a a b"` at target width 7 takes the padding branch
(3 words, deficit 2), yet the result has length 6, not 7: the wraparound
selects the word value `"a"` twice but the set keeps it once. -/
theorem justify_pad_repeated_word_cex :
    (removeDoubleSpaces (("a a b").toList)).length < 7 ∧
    ¬ (splitOn [' '] (removeDoubleSpaces (("a a b").toList))).length <
      7 - (removeDoubleSpaces (("a a b").toList)).length ∧
    (justify_to_length (("a a b").toList) 7).map List.length = some 6 := by decide

/-- C1 (amended): when the padding branch is taken, the non-final word list is
non-empty, and the deficit-many selected words (wraparound indices into the
descending-length stable sort) are pairwise distinct, the padded line has
exactly the target length. -/
theorem justify_width_invariant_distinct (line : List Char) (len : Nat)
    (hlt : (removeDoubleSpaces line).length < len)
    (hge : ¬ (splitOn [' '] (removeDoubleSpaces line)).length <
      len - (removeDoubleSpaces line).length)
    (hw : (splitOn [' '] (removeDoubleSpaces line)).dropLast ≠ [])
    (hnodup : (selections (sortDesc ((splitOn [' '] (removeDoubleSpaces line)).dropLast))
        (len - (removeDoubleSpaces line).length)).Nodup) :
    ∃ out, justify_to_length line len = some out ∧ out.length = len := by
  refine ⟨_, justify_pad_branch line len hlt hge hw, ?_⟩
  have hSsel : (selections (sortDesc ((splitOn [' '] (removeDoubleSpaces line)).dropLast))
        (len - (removeDoubleSpaces line).length)).foldl addToSet []
      = selections (sortDesc ((splitOn [' '] (removeDoubleSpaces line)).dropLast))
        (len - (removeDoubleSpaces line).length) :=
    foldl_addToSet_of_nodup _ [] hnodup (by simp)
  have hlen := reassemble_length (splitOn [' '] (removeDoubleSpaces line))
    ((selections (sortDesc ((splitOn [' '] (removeDoubleSpaces line)).dropLast))
        (len - (removeDoubleSpaces line).length)).foldl addToSet [])
    (by rw [hSsel]; exact hnodup) (pad_set_sub line len hw)
  have hsum := splitS_length_sum (fun x => x == ' ') (removeDoubleSpaces line)
  rw [← splitOn_space] at hsum
  have hSlen : ((selections (sortDesc ((splitOn [' '] (removeDoubleSpaces line)).dropLast))
        (len - (removeDoubleSpaces line).length)).foldl addToSet []).length
      = len - (removeDoubleSpaces line).length := by
    rw [hSsel, length_selections]
  rw [List.length_dropLast, hlen, hSlen]
  omega

/-- C1 witness. -/
theorem justify_width_invariant_distinct_witness :
    ((removeDoubleSpaces (("aa b cc").toList)).length < 9 ∧
      ¬ (splitOn [' '] (removeDoubleSpaces (("aa b cc").toList))).length <
        9 - (removeDoubleSpaces (("aa b cc").toList)).length ∧
      (splitOn [' '] (removeDoubleSpaces (("aa b cc").toList))).dropLast ≠ [] ∧
      (selections (sortDesc ((splitOn [' '] (removeDoubleSpaces (("aa b cc").toList))).dropLast))
        (9 - (removeDoubleSpaces (("aa b cc").toList)).length)).Nodup) ∧
    ∃ out, justify_to_length (("aa b cc").toList) 9 = some out ∧ out.length = 9 :=
  ⟨by decide,
    justify_width_invariant_distinct (("aa b cc").toList) 9
      (by decide) (by decide) (by decide) (by decide)⟩

/-- C4 counterexample: for `"a b"` at width 5 the deficit (2) exceeds the
number of words excluding the final one (1), so the claim says justification
is skipped; the code instead pads (its guard counts the final word too) and
returns `"a  b"`. -/
theorem justify_skip_threshold_cex :
    (("a b").toList).length < 5 ∧
    ((splitOn [' '] (("a b").toList)).dropLast).length < 5 - (("a b").toList).length ∧
    justify_to_length (("a b").toList) 5 ≠ some (("a b").toList) := by decide

/-- C4 (amended): for a line with no repeated spaces and shorter than the
target, justification is skipped (the line is returned unchanged) exactly when
the deficit exceeds the number of words *including* the final one, i.e. when
`number_of_words < deficit`. -/
theorem justify_skip_iff_words_lt_deficit (line : List Char) (len : Nat)
    (hc : removeDoubleSpaces line = line) (hlt : line.length < len) :
    justify_to_length line len = some line ↔
      (splitOn [' '] line).length < len - line.length := by
  constructor
  · intro hres
    by_contra hge
    by_cases hw : (splitOn [' '] line).dropLast = []
    · unfold justify_to_length at hres
      rw [hc] at hres
      rw [if_neg (by omega), if_neg hge, if_pos (by rw [hw]; rfl)] at hres
      exact Option.noConfusion hres
    · rw [justify_pad_branch line len (by rw [hc]; exact hlt) (by rw [hc]; exact hge)
        (by rw [hc]; exact hw), hc] at hres
      have hout := Option.some.inj hres
      have hnd : ((selections (sortDesc ((splitOn [' '] line).dropLast))
          (len - line.length)).foldl addToSet []).Nodup :=
        nodup_foldl_addToSet _ [] List.nodup_nil
      have hsub : ∀ w ∈ (selections (sortDesc ((splitOn [' '] line).dropLast))
          (len - line.length)).foldl addToSet [], w ∈ splitOn [' '] line := by
        have h := pad_set_sub line len (by rw [hc]; exact hw)
        rw [hc] at h
        exact h
      have hlen := reassemble_length (splitOn [' '] line) _ hnd hsub
      have hsum := splitS_length_sum (fun x => x == ' ') line
      rw [← splitOn_space] at hsum
      have hSpos : 0 <
          ((selections (sortDesc ((splitOn [' '] line).dropLast))
            (len - line.length)).foldl addToSet []).length := by
        have hselne : selections (sortDesc ((splitOn [' '] line).dropLast))
            (len - line.length) ≠ [] := by
          intro he
          have hL := length_selections (sortDesc ((splitOn [' '] line).dropLast))
            (len - line.length)
          rw [he] at hL
          simp at hL
          omega
        rcases List.exists_mem_of_ne_nil _ hselne with ⟨x, hx⟩
        have hxS : x ∈ (selections (sortDesc ((splitOn [' '] line).dropLast))
            (len - line.length)).foldl addToSet [] :=
          (mem_foldl_addToSet _ [] x).2 (Or.inr hx)
        exact List.length_pos.2 (fun he => by rw [he] at hxS; simp at hxS)
      have hlineq := congrArg List.length hout
      rw [List.length_dropLast, hlen] at hlineq
      omega
  · intro hlt2
    unfold justify_to_length
    rw [hc]
    rw [if_neg (by omega), if_pos hlt2]

/-- C4 witness. -/
theorem justify_skip_iff_words_lt_deficit_witness :
    (removeDoubleSpaces (("a b c").toList) = ("a b c").toList ∧
      (("a b c").toList).length < 20) ∧
    (justify_to_length (("a b c").toList) 20 = some (("a b c").toList) ↔
      (splitOn [' '] (("a b c").toList)).length < 20 - (("a b c").toList).length) :=
  ⟨by decide, justify_skip_iff_words_lt_deficit (("a b c").toList) 20 (by decide) (by decide)⟩

/-- Erasing `p` from "S minus seen" is filtering S by "not seen and not p",
for a duplicate-free S. -/
theorem filter_notMem_erase :
    ∀ (S : List (List Char)), S.Nodup → ∀ (seen : List (List Char)) (p : List Char),
      (S.filter (fun w => decide (w ∉ seen))).erase p
        = S.filter (fun w => decide (w ∉ p :: seen)) := by
  intro S
  induction S with
  | nil => intro _ seen p; simp
  | cons x S' ih =>
    intro hnd seen p
    have hx : x ∉ S' := (List.nodup_cons.1 hnd).1
    have hnd' : S'.Nodup := (List.nodup_cons.1 hnd).2
    by_cases hxs : x ∈ seen
    · rw [List.filter_cons_of_neg (by simp [hxs]),
        List.filter_cons_of_neg (by simp [List.mem_cons, hxs])]
      exact ih hnd' seen p
    · by_cases hxp : x = p
      · subst hxp
        rw [List.filter_cons_of_pos (by simp [hxs]), List.erase_cons_head,
          List.filter_cons_of_neg (by simp [List.mem_cons])]
        apply List.filter_congr
        intro w hw
        have hwp : w ≠ x := fun he => hx (he ▸ hw)
        simp [List.mem_cons, hwp]
      · rw [List.filter_cons_of_pos (by simp [hxs]),
          List.filter_cons_of_pos (by simp [List.mem_cons, hxs]; exact hxp),
          List.erase_cons_tail (by simp; exact hxp), ih hnd' seen p]

/-- The imperative erase-as-you-go reassembly equals the declarative
"one extra space after the first occurrence of each selected value"
description, for a duplicate-free selection set. -/
theorem reassemble_eq_padFirstOcc (S : List (List Char)) (hnd : S.Nodup) :
    ∀ (ps seen : List (List Char)),
      reassemble ps (S.filter (fun w => decide (w ∉ seen))) = padFirstOcc S seen ps := by
  intro ps
  induction ps with
  | nil => intro seen; rfl
  | cons p ps' ih =>
    intro seen
    by_cases hp : p ∈ S ∧ p ∉ seen
    · have hmem : p ∈ S.filter (fun w => decide (w ∉ seen)) :=
        List.mem_filter.2 ⟨hp.1, decide_eq_true hp.2⟩
      simp only [reassemble, padFirstOcc]
      rw [if_pos hmem, if_pos hp, filter_notMem_erase S hnd seen p, ih (p :: seen)]
    · have hmem : p ∉ S.filter (fun w => decide (w ∉ seen)) := by
        intro hmem
        rcases List.mem_filter.1 hmem with ⟨h1, h2⟩
        exact hp ⟨h1, of_decide_eq_true h2⟩
      have hcongr : S.filter (fun w => decide (w ∉ seen))
          = S.filter (fun w => decide (w ∉ p :: seen)) := by
        apply List.filter_congr
        intro w hwS
        by_cases hwp : w = p
        · subst hwp
          have hws : w ∈ seen := by
            by_contra hns
            exact hp ⟨hwS, hns⟩
          simp [List.mem_cons, hws]
        · simp [List.mem_cons, hwp]
      simp only [reassemble, padFirstOcc]
      rw [if_neg hmem, if_neg hp, hcongr, ih (p :: seen)]

/-- C10: in the padding branch the recipients of extra spaces form a
duplicate-free set whose members are exactly the (wraparound-)selected word
values, and the output inserts the one extra space after the *first*
occurrence of each such value — regardless of how often or at which position
the wraparound selection chose it. -/
theorem justify_set_semantics_first_occurrence (line : List Char) (len : Nat)
    (hlt : (removeDoubleSpaces line).length < len)
    (hge : ¬ (splitOn [' '] (removeDoubleSpaces line)).length <
      len - (removeDoubleSpaces line).length)
    (hw : (splitOn [' '] (removeDoubleSpaces line)).dropLast ≠ []) :
    ∃ S : List (List Char), S.Nodup ∧
      (∀ w, w ∈ S ↔ w ∈ selections (sortDesc ((splitOn [' '] (removeDoubleSpaces line)).dropLast))
          (len - (removeDoubleSpaces line).length)) ∧
      justify_to_length line len =
        some ((padFirstOcc S [] (splitOn [' '] (removeDoubleSpaces line))).dropLast) := by
  refine ⟨(selections (sortDesc ((splitOn [' '] (removeDoubleSpaces line)).dropLast))
      (len - (removeDoubleSpaces line).length)).foldl addToSet [],
    nodup_foldl_addToSet _ [] List.nodup_nil, ?_, ?_⟩
  · intro w
    rw [mem_foldl_addToSet]
    simp
  · have hfilter : ((selections (sortDesc ((splitOn [' '] (removeDoubleSpaces line)).dropLast))
        (len - (removeDoubleSpaces line).length)).foldl addToSet []).filter
          (fun w => decide (w ∉ ([] : List (List Char))))
      = (selections (sortDesc ((splitOn [' '] (removeDoubleSpaces line)).dropLast))
        (len - (removeDoubleSpaces line).length)).foldl addToSet [] := by
      apply List.filter_eq_self.2
      intro a _
      simp
    have heq := reassemble_eq_padFirstOcc
      ((selections (sortDesc ((splitOn [' '] (removeDoubleSpaces line)).dropLast))
        (len - (removeDoubleSpaces line).length)).foldl addToSet [])
      (nodup_foldl_addToSet _ [] List.nodup_nil)
      (splitOn [' '] (removeDoubleSpaces line)) []
    rw [hfilter] at heq
    rw [justify_pad_branch line len hlt hge hw, heq]

/-- C10 witness: for `"a b"` at width 5 the wraparound selects `"a"` twice;
the set keeps it once and the single extra space lands after it. -/
theorem justify_set_semantics_first_occurrence_witness :
    ((removeDoubleSpaces (("a b").toList)).length < 5 ∧
      ¬ (splitOn [' '] (removeDoubleSpaces (("a b").toList))).length <
        5 - (removeDoubleSpaces (("a b").toList)).length ∧
      (splitOn [' '] (removeDoubleSpaces (("a b").toList))).dropLast ≠ []) ∧
    ∃ S : List (List Char), S.Nodup ∧
      (∀ w, w ∈ S ↔ w ∈ selections
          (sortDesc ((splitOn [' '] (removeDoubleSpaces (("a b").toList))).dropLast))
          (5 - (removeDoubleSpaces (("a b").toList)).length)) ∧
      justify_to_length (("a b").toList) 5 =
        some ((padFirstOcc S [] (splitOn [' '] (removeDoubleSpaces (("a b").toList)))).dropLast) :=
  ⟨by decide,
    justify_set_semantics_first_occurrence (("a b").toList) 5 (by decide) (by decide) (by decide)⟩

/-! ### Termination of the wrapper -/

/-- Step equation of `split_go`: the line fits. -/
theorem split_go_eq_fits {length tab fuel : Nat} {line : List Char}
    (h : line.length ≤ length - tab) :
    split_go length tab (fuel + 1) line = some (some (List.replicate tab ' ' ++ line)) := by
  unfold split_go
  rw [if_pos h]

/-- Step equation of `split_go`: no space before the break position. -/
theorem split_go_eq_hard {length tab fuel : Nat} {line : List Char}
    (h : ¬ line.length ≤ length - tab)
    (hrf : rfindSpace (line.take (length - tab)) = none) :
    split_go length tab (fuel + 1) line =
      match split_go length tab fuel (line.drop (length - tab)) with
      | none => none
      | some none => some none
      | some (some rest) =>
        some (some (List.replicate tab ' ' ++ line.take (length - tab) ++ '\n' :: rest)) := by
  simp only [split_go]
  rw [if_neg h, hrf]

/-- Step equation of `split_go`: break at the last space. -/
theorem split_go_eq_space {length tab fuel : Nat} {line : List Char} {s : Nat}
    (h : ¬ line.length ≤ length - tab)
    (hrf : rfindSpace (line.take (length - tab)) = some s) :
    split_go length tab (fuel + 1) line =
      match justify_to_length (line.take s) (length - tab) with
      | none => some none
      | some j =>
        match split_go length tab fuel (line.drop (s + 1)) with
        | none => none
        | some none => some none
        | some (some rest) => some (some (List.replicate tab ' ' ++ j ++ '\n' :: rest)) := by
  simp only [split_go]
  rw [if_neg h, hrf]

/-- With `tab < length`, fuel exceeding the line length is never exhausted:
every recursive call of `split_go` drops at least one character. -/
theorem split_go_isSome (length tab : Nat) (htab : tab < length) :
    ∀ (fuel : Nat) (line : List Char), line.length < fuel →
      (split_go length tab fuel line).isSome = true := by
  intro fuel
  induction fuel with
  | zero => intro line h; exact absurd h (Nat.not_lt_zero _)
  | succ f ih =>
    intro line h
    by_cases hfit : line.length ≤ length - tab
    · rw [split_go_eq_fits hfit]
      rfl
    · have hL : 1 ≤ length - tab := by omega
      cases hrf : rfindSpace (line.take (length - tab)) with
      | none =>
        rw [split_go_eq_hard hfit hrf]
        have hrec := ih (line.drop (length - tab)) (by rw [List.length_drop]; omega)
        cases hres : split_go length tab f (line.drop (length - tab)) with
        | none => rw [hres] at hrec; simp at hrec
        | some o => cases o <;> rfl
      | some s =>
        rw [split_go_eq_space hfit hrf]
        cases hj : justify_to_length (line.take s) (length - tab) with
        | none => rfl
        | some j =>
          have hrec := ih (line.drop (s + 1)) (by rw [List.length_drop]; omega)
          cases hres : split_go length tab f (line.drop (s + 1)) with
          | none => rw [hres] at hrec; simp at hrec
          | some o => cases o <;> rfl

/-- With `tab < length` the result does not depend on the fuel, as long as the
fuel exceeds the line length: the recursion bottoms out within
`line.length` steps because the remainder is strictly shorter on every
recursive call. -/
theorem split_go_fuel_irrel (length tab : Nat) (htab : tab < length) :
    ∀ (n : Nat) (line : List Char), line.length ≤ n →
      ∀ f1 f2, line.length < f1 → line.length < f2 →
        split_go length tab f1 line = split_go length tab f2 line := by
  intro n
  induction n with
  | zero =>
    intro line hlen f1 f2 h1 h2
    have hnil : line = [] := List.length_eq_zero.1 (Nat.le_zero.1 hlen)
    subst hnil
    cases f1 with
    | zero => omega
    | succ g =>
      cases f2 with
      | zero => omega
      | succ h => rw [split_go_eq_fits (by simp), split_go_eq_fits (by simp)]
  | succ n ihn =>
    intro line hlen f1 f2 h1 h2
    cases f1 with
    | zero => omega
    | succ g =>
      cases f2 with
      | zero => omega
      | succ h =>
        by_cases hfit : line.length ≤ length - tab
        · rw [split_go_eq_fits hfit, split_go_eq_fits hfit]
        · have hL : 1 ≤ length - tab := by omega
          cases hrf : rfindSpace (line.take (length - tab)) with
          | none =>
            rw [@split_go_eq_hard length tab g line hfit hrf,
              @split_go_eq_hard length tab h line hfit hrf,
              ihn (line.drop (length - tab)) (by rw [List.length_drop]; omega) g h
                (by rw [List.length_drop]; omega) (by rw [List.length_drop]; omega)]
          | some s =>
            rw [@split_go_eq_space length tab g line s hfit hrf,
              @split_go_eq_space length tab h line s hfit hrf]
            cases hj : justify_to_length (line.take s) (length - tab) with
            | none => rfl
            | some j =>
              rw [ihn (line.drop (s + 1)) (by rw [List.length_drop]; omega) g h
                (by rw [List.length_drop]; omega) (by rw [List.length_drop]; omega)]

/-- C8: when the indent is strictly smaller than the width,
`split_line_to_length` terminates: the default fuel `line.length + 1` is
never exhausted and any larger fuel computes the same answer, because every
recursive call strictly shortens the remaining text. -/
theorem split_line_terminates (line : List Char) (length tab : Nat) (htab : tab < length) :
    (split_line_to_length line length tab).isSome = true ∧
    ∀ fuel, line.length < fuel →
      split_go length tab fuel line = split_line_to_length line length tab :=
  ⟨split_go_isSome length tab htab (line.length + 1) line (Nat.lt_succ_self _),
   fun fuel hf => split_go_fuel_irrel length tab htab line.length line (Nat.le_refl _)
     fuel (line.length + 1) hf (Nat.lt_succ_self _)⟩

/-- C8 witness. -/
theorem split_line_terminates_witness :
    (1 < 4) ∧
    ((split_line_to_length (("ab cd").toList) 4 1).isSome = true ∧
      ∀ fuel, (("ab cd").toList).length < fuel →
        split_go 4 1 fuel (("ab cd").toList) = split_line_to_length (("ab cd").toList) 4 1) :=
  ⟨by decide, split_line_terminates (("ab cd").toList) 4 1 (by decide)⟩

/-! ### Word sequences are preserved by the collapse loop -/

theorem wordsS_cons_sep {p : Char → Bool} {c : Char} (h : p c = true) (l : List Char) :
    wordsS p (c :: l) = wordsS p l := by
  unfold wordsS
  rw [splitS_cons_sep h, List.filter_cons_of_neg (by simp)]

theorem wordsS_append_sep {p : Char → Bool} {c : Char} (h : p c = true) (a b : List Char) :
    wordsS p (a ++ c :: b) = wordsS p a ++ wordsS p b := by
  unfold wordsS
  rw [splitS_append_sep h, List.filter_append]

theorem wordsS_sepFree {p : Char → Bool} {a : List Char} (h : ∀ x ∈ a, p x = false) :
    wordsS p a = if a.isEmpty then [] else [a] := by
  unfold wordsS
  rw [splitS_sepFree h]
  cases a with
  | nil => rfl
  | cons y ys => simp [List.filter]

theorem wordsS_sepFree_append {p : Char → Bool} {a : List Char}
    (ha : ∀ x ∈ a, p x = false) (hane : a ≠ []) {c : Char} (hc : p c = true) (b : List Char) :
    wordsS p (a ++ c :: b) = a :: wordsS p b := by
  rw [wordsS_append_sep hc, wordsS_sepFree ha, if_neg (by simpa using hane)]
  rfl

theorem wordsS_replicate {p : Char → Bool} (hp : p ' ' = true) (n : Nat) (x : List Char) :
    wordsS p (List.replicate n ' ' ++ x) = wordsS p x := by
  induction n with
  | zero => rfl
  | succ m ih => rw [List.replicate_succ, List.cons_append, wordsS_cons_sep hp, ih]

theorem wordsS_concat_sep {p : Char → Bool} {c : Char} (hc : p c = true) (l : List Char) :
    wordsS p (l ++ [c]) = wordsS p l := by
  rw [show l ++ [c] = l ++ c :: [] from rfl, wordsS_append_sep hc,
    show wordsS p [] = [] from rfl]
  exact List.append_nil _

theorem wordsS_congr {p q : Char → Bool} {l : List Char} (h : ∀ x ∈ l, p x = q x) :
    wordsS p l = wordsS q l := by
  unfold wordsS
  rw [splitS_congr h]

theorem wordsS_eq_head_append (p : Char → Bool) (l : List Char) :
    wordsS p l = (if (splitS p l).headI.isEmpty then [] else [(splitS p l).headI])
      ++ (splitS p l).tail.filter (fun w => !w.isEmpty) := by
  conv_lhs => rw [wordsS, ← cons_headI_tail (splitS_ne_nil p l)]
  rw [List.filter_cons]
  by_cases hh : (splitS p l).headI.isEmpty = true
  · simp [hh]
  · simp [hh]

theorem filter_tail_congr (p : Char → Bool) {l1 l2 : List Char}
    (h1 : (splitS p l1).headI = (splitS p l2).headI)
    (h2 : wordsS p l1 = wordsS p l2) :
    (splitS p l1).tail.filter (fun w => !w.isEmpty)
      = (splitS p l2).tail.filter (fun w => !w.isEmpty) := by
  rw [wordsS_eq_head_append, wordsS_eq_head_append, h1] at h2
  by_cases hh : (splitS p l2).headI.isEmpty = true
  · rw [if_pos hh] at h2
    simpa using h2
  · rw [if_neg hh] at h2
    simpa using h2

/-- One pass of `line.replace("  ", " ")` changes neither the first
space-split piece nor the word sequence, for any separator predicate that
counts the space as a separator. -/
theorem replaceAllGo_dd (p : Char → Bool) (hp : p ' ' = true) :
    ∀ (fuel : Nat) (l : List Char), l.length < fuel →
      (splitS p (replaceAllGo [' ', ' '] [' '] fuel l)).headI = (splitS p l).headI ∧
      wordsS p (replaceAllGo [' ', ' '] [' '] fuel l) = wordsS p l := by
  intro fuel
  induction fuel with
  | zero => intro l h; exact absurd h (Nat.not_lt_zero _)
  | succ f ih =>
    intro l h
    cases l with
    | nil => exact ⟨rfl, rfl⟩
    | cons c cs =>
      by_cases hpre : ([' ', ' '].isPrefixOf (c :: cs) && !(List.isEmpty [' ', ' '])) = true
      · have hc : c = ' ' ∧ ∃ t, cs = ' ' :: t := by
          cases cs with
          | nil => simp [List.isPrefixOf] at hpre
          | cons c2 t =>
            simp [List.isPrefixOf] at hpre
            obtain ⟨h1, h2⟩ := hpre
            exact ⟨h1.symm, t, by rw [← h2]⟩
        obtain ⟨rfl, t, rfl⟩ := hc
        have hstep : replaceAllGo [' ', ' '] [' '] (f + 1) (' ' :: ' ' :: t)
            = ' ' :: replaceAllGo [' ', ' '] [' '] f t := by
          simp only [replaceAllGo]
          rw [if_pos hpre]
          rfl
        rw [hstep]
        have iht := ih t (by simp at h; omega)
        constructor
        · simp [splitS_cons_sep hp]
        · simp only [wordsS_cons_sep hp]
          exact iht.2
      · have hstep : replaceAllGo [' ', ' '] [' '] (f + 1) (c :: cs)
            = c :: replaceAllGo [' ', ' '] [' '] f cs := by
          simp only [replaceAllGo]
          rw [if_neg hpre]
        rw [hstep]
        have ihc := ih cs (by simp at h; omega)
        by_cases hcsep : p c = true
        · constructor
          · simp [splitS_cons_sep hcsep]
          · simp only [wordsS_cons_sep hcsep]
            exact ihc.2
        · have hc' : p c = false := by simpa using hcsep
          constructor
          · rw [splitS_cons_nonsep hc', splitS_cons_nonsep hc']
            simp only [List.headI_cons]
            rw [ihc.1]
          · rw [wordsS, splitS_cons_nonsep hc', wordsS, splitS_cons_nonsep hc',
              List.filter_cons_of_pos (by simp), List.filter_cons_of_pos (by simp),
              ihc.1, filter_tail_congr p ihc.1 ihc.2]

/-- The collapse loop preserves the word sequence. -/
theorem rdsGo_wordsS (p : Char → Bool) (hp : p ' ' = true) :
    ∀ (fuel : Nat) (l : List Char), wordsS p (rdsGo fuel l) = wordsS p l := by
  intro fuel
  induction fuel with
  | zero => intro l; rfl
  | succ f ih =>
    intro l
    simp only [rdsGo]
    split
    · rw [ih]
      exact (replaceAllGo_dd p hp (l.length + 1) l (Nat.lt_succ_self _)).2
    · rfl

theorem removeDoubleSpaces_wordsS (p : Char → Bool) (hp : p ' ' = true) (l : List Char) :
    wordsS p (removeDoubleSpaces l) = wordsS p l :=
  rdsGo_wordsS p hp l.length l

/-- Characters of a replaced string come from the string or the replacement. -/
theorem mem_replaceAllGo {sep new : List Char} :
    ∀ (fuel : Nat) (l : List Char) (c : Char),
      c ∈ replaceAllGo sep new fuel l → c ∈ l ∨ c ∈ new := by
  intro fuel
  induction fuel with
  | zero => intro l c h; exact Or.inl h
  | succ f ih =>
    intro l c h
    cases l with
    | nil => simp [replaceAllGo] at h
    | cons x xs =>
      simp only [replaceAllGo] at h
      split at h
      · rcases List.mem_append.1 h with h1 | h2
        · exact Or.inr h1
        · rcases ih _ c h2 with h3 | h3
          · exact Or.inl (List.drop_subset _ _ h3)
          · exact Or.inr h3
      · rcases List.mem_cons.1 h with rfl | h2
        · exact Or.inl (by simp)
        · rcases ih _ c h2 with h3 | h3
          · exact Or.inl (by simp [h3])
          · exact Or.inr h3

theorem mem_rdsGo :
    ∀ (fuel : Nat) (l : List Char) (c : Char), c ∈ rdsGo fuel l → c ∈ l ∨ c = ' ' := by
  intro fuel
  induction fuel with
  | zero => intro l c h; exact Or.inl h
  | succ f ih =>
    intro l c h
    simp only [rdsGo] at h
    split at h
    · rcases ih _ c h with h1 | h1
      · rcases mem_replaceAllGo _ _ c h1 with h2 | h2
        · exact Or.inl h2
        · simp at h2
          exact Or.inr h2
      · exact Or.inr h1
    · exact Or.inl h

theorem mem_removeDoubleSpaces {l : List Char} {c : Char} (h : c ∈ removeDoubleSpaces l) :
    c ∈ l ∨ c = ' ' :=
  mem_rdsGo l.length l c h

/-! ### Word sequences are preserved by justification -/

theorem reassemble_ends_space :
    ∀ (ps : List (List Char)), ps ≠ [] → ∀ S : List (List Char),
      ∃ Y, reassemble ps S = Y ++ [' '] := by
  intro ps
  induction ps with
  | nil => intro h; exact absurd rfl h
  | cons q qs ih =>
    intro _ S
    cases hqs : qs with
    | nil =>
      simp only [reassemble]
      split
      · exact ⟨q ++ [' '], by simp⟩
      · exact ⟨q, by simp⟩
    | cons r rs =>
      simp only [reassemble]
      split
      · obtain ⟨Y, hY⟩ := ih (by simp [hqs]) (S.erase q)
        rw [hqs] at hY
        simp only [reassemble] at hY
        exact ⟨q ++ [' ', ' '] ++ Y, by rw [hY]; simp⟩
      · obtain ⟨Y, hY⟩ := ih (by simp [hqs]) S
        rw [hqs] at hY
        simp only [reassemble] at hY
        exact ⟨q ++ [' '] ++ Y, by rw [hY]; simp⟩

theorem reassemble_wordsS (p : Char → Bool) (hp : p ' ' = true) :
    ∀ (ps : List (List Char)), (∀ w ∈ ps, ∀ x ∈ w, p x = false) →
      ∀ S : List (List Char),
        wordsS p (reassemble ps S) = ps.filter (fun w => !w.isEmpty) := by
  intro ps
  induction ps with
  | nil => intro _ S; rfl
  | cons q qs ih =>
    intro hfree S
    have hqfree : ∀ x ∈ q, p x = false := hfree q (by simp)
    have hrest : ∀ w ∈ qs, ∀ x ∈ w, p x = false := fun w hw => hfree w (by simp [hw])
    simp only [reassemble]
    split
    · rw [show q ++ [' ', ' '] ++ reassemble qs (S.erase q)
          = q ++ ' ' :: (' ' :: reassemble qs (S.erase q)) from by simp]
      rw [wordsS_append_sep hp, wordsS_cons_sep hp, ih hrest (S.erase q),
        wordsS_sepFree hqfree, List.filter_cons]
      by_cases hq : q.isEmpty = true
      · simp [hq]
      · simp [hq]
    · rw [show q ++ [' '] ++ reassemble qs S = q ++ ' ' :: reassemble qs S from by simp]
      rw [wordsS_append_sep hp, ih hrest S, wordsS_sepFree hqfree, List.filter_cons]
      by_cases hq : q.isEmpty = true
      · simp [hq]
      · simp [hq]

/-- `justify_to_length` preserves the word sequence, for any separator
predicate `p` that counts the space as a separator and for which every
separator character occurring in the line is the space. -/
theorem justify_wordsS (p : Char → Bool) (hp : p ' ' = true) (line : List Char)
    (hc : ∀ c ∈ line, p c = true → c = ' ') :
    ∀ (len : Nat) (out : List Char),
      justify_to_length line len = some out → wordsS p out = wordsS p line := by
  intro len out hres
  have hchars : ∀ c ∈ removeDoubleSpaces line, p c = (c == ' ') := by
    intro c hcmem
    rcases mem_removeDoubleSpaces hcmem with hm | he
    · by_cases hsp : c = ' '
      · subst hsp
        rw [hp]
        simp
    
      · have hne : p c ≠ true := fun hpt => hsp (hc c hm hpt)
        have h1 : p c = false := by simpa using hne
        rw [h1]
        simp [hsp]
    · subst he
      rw [hp]
      simp
  have hcoll : wordsS p (removeDoubleSpaces line) = wordsS p line :=
    removeDoubleSpaces_wordsS p hp line
  unfold justify_to_length at hres
  by_cases h1 : len ≤ (removeDoubleSpaces line).length
  · rw [if_pos h1] at hres
    obtain rfl := Option.some.inj hres
    exact hcoll
  · rw [if_neg h1] at hres
    by_cases h2 : (splitOn [' '] (removeDoubleSpaces line)).length <
        len - (removeDoubleSpaces line).length
    · rw [if_pos h2] at hres
      obtain rfl := Option.some.inj hres
      exact hcoll
    · rw [if_neg h2] at hres
      by_cases h3 : ((splitOn [' '] (removeDoubleSpaces line)).dropLast).isEmpty = true
      · rw [if_pos h3] at hres
        exact Option.noConfusion hres
      · rw [if_neg h3] at hres
        obtain rfl := Option.some.inj hres
        have hpieces : splitOn [' '] (removeDoubleSpaces line)
            = splitS p (removeDoubleSpaces line) := by
          rw [splitOn_space]
          exact (splitS_congr (fun x hx => by rw [hchars x hx])).symm
        have hfree : ∀ w ∈ splitOn [' '] (removeDoubleSpaces line), ∀ x ∈ w, p x = false := by
          rw [hpieces]
          exact splitS_pieces_sepFree
        have hne : splitOn [' '] (removeDoubleSpaces line) ≠ [] := by
          rw [hpieces]
          exact splitS_ne_nil p _
        obtain ⟨Y, hY⟩ := reassemble_ends_space _ hne
          ((selections (sortDesc ((splitOn [' '] (removeDoubleSpaces line)).dropLast))
            (len - (removeDoubleSpaces line).length)).foldl addToSet [])
        have hwords := reassemble_wordsS p hp _ hfree
          ((selections (sortDesc ((splitOn [' '] (removeDoubleSpaces line)).dropLast))
            (len - (removeDoubleSpaces line).length)).foldl addToSet [])
        rw [hY] at hwords
        rw [wordsS_concat_sep hp] at hwords
        rw [hY, List.dropLast_concat, hwords, hpieces]
        rw [show (splitS p (removeDoubleSpaces line)).filter (fun w => !w.isEmpty)
            = wordsS p (removeDoubleSpaces line) from rfl]
        exact hcoll

/-! ### Word sequences and the wrapper -/

theorem rfindSpace_none : ∀ {z : List Char}, rfindSpace z = none → ∀ c ∈ z, c ≠ ' ' := by
  intro z
  induction z with
  | nil =>
    intro _ c hc
    simp at hc
  | cons x xs ih =>
    intro h c hc
    unfold rfindSpace at h
    cases hr : rfindSpace xs with
    | some k =>
      rw [hr] at h
      exact Option.noConfusion h
    | none =>
      rw [hr] at h
      rcases List.mem_cons.1 hc with rfl | hc'
      · intro he
        rw [he] at h
        simp at h
      · exact ih hr c hc'

theorem rfindSpace_some :
    ∀ {z : List Char} {k : Nat}, rfindSpace z = some k → k < z.length ∧ z[k]? = some ' ' := by
  intro z
  induction z with
  | nil => intro k h; exact Option.noConfusion h
  | cons c cs ih =>
    intro k h
    unfold rfindSpace at h
    cases hr : rfindSpace cs with
    | some m =>
      rw [hr] at h
      obtain rfl : m + 1 = k := Option.some.inj h
      obtain ⟨h1, h2⟩ := ih hr
      constructor
      · simpa using Nat.succ_lt_succ h1
      · simpa using h2
    | none =>
      rw [hr] at h
      by_cases hc : (c == ' ') = true
      · rw [if_pos hc] at h
        obtain rfl : 0 = k := Option.some.inj h
        have hc' : c = ' ' := by simpa using hc
        exact ⟨by simp, by simp [hc']⟩
      · rw [if_neg hc] at h
        exact Option.noConfusion h

/-- With a zero content width the hard-cut branch recurses on the whole line
for ever; any finite fuel runs out. -/
theorem split_go_stall {length tab : Nat} (hL0 : length - tab = 0) {line : List Char}
    (hne : line ≠ []) : ∀ fuel, split_go length tab fuel line = none := by
  intro fuel
  induction fuel with
  | zero => rfl
  | succ f ih =>
    have hlen : ¬ line.length ≤ length - tab := by
      rw [hL0]
      have hpos := List.length_pos.2 hne
      omega
    have hrf : rfindSpace (line.take (length - tab)) = none := by
      rw [hL0, List.take_zero]
      rfl
    rw [split_go_eq_hard hlen hrf, hL0, List.drop_zero, ih]

theorem takeWhile_append_all {q : Char → Bool} {a : List Char}
    (h : ∀ x ∈ a, q x = true) (b : List Char) :
    (a ++ b).takeWhile q = a ++ b.takeWhile q := by
  induction a with
  | nil => rfl
  | cons x a' ih =>
    rw [List.cons_append, List.takeWhile_cons, if_pos (h x (by simp))]
    rw [ih (fun y hy => h y (by simp [hy]))]
    rfl

theorem splitS_headI_eq_takeWhile (p : Char → Bool) (l : List Char) :
    (splitS p l).headI = l.takeWhile (fun c => !(p c)) := by
  induction l with
  | nil => rfl
  | cons c cs ih =>
    by_cases hc : p c = true
    · rw [splitS_cons_sep hc, List.takeWhile_cons, if_neg (by simp [hc])]
      rfl
    · have hc' : p c = false := by simpa using hc
      rw [splitS_cons_nonsep hc', List.takeWhile_cons, if_pos (by simp [hc'])]
      simp only [List.headI_cons]
      rw [ih]

theorem takeWhile_mem_wordsS {p : Char → Bool} {l : List Char}
    (h : l.takeWhile (fun c => !(p c)) ≠ []) :
    l.takeWhile (fun c => !(p c)) ∈ wordsS p l := by
  rw [← splitS_headI_eq_takeWhile]
  unfold wordsS
  refine List.mem_filter.2 ⟨headI_mem_of_ne_nil (splitS_ne_nil p l), ?_⟩
  rw [splitS_headI_eq_takeWhile]
  simpa using h

theorem eq_take_cons_drop {ln : List Char} {s : Nat} (h : ln[s]? = some ' ') :
    ln = ln.take s ++ ' ' :: ln.drop (s + 1) := by
  have hs : s < ln.length := by
    by_contra hge
    rw [List.getElem?_eq_none (by omega)] at h
    exact Option.noConfusion h
  have hval : ln[s] = ' ' := by
    have hg := List.getElem?_eq_getElem hs
    rw [hg] at h
    exact Option.some.inj h
  conv_lhs => rw [← List.take_append_drop s ln]
  rw [List.drop_eq_getElem_cons hs, hval]

/-- The wrapper preserves the word sequence (spaces and line breaks both
acting as separators), provided the input has no line breaks and none of its
words exceeds the content width — the hypotheses under which the hard cut can
only fall on a word boundary. -/
theorem split_go_wordsNL (length tab : Nat) :
    ∀ (fuel : Nat) (ln out : List Char),
      (∀ c ∈ ln, c ≠ '\n') →
      (∀ w ∈ wordsNL ln, w.length ≤ length - tab) →
      split_go length tab fuel ln = some (some out) →
      wordsNL out = wordsNL ln := by
  intro fuel
  induction fuel with
  | zero =>
    intro ln out _ _ h
    exact Option.noConfusion h
  | succ f ih =>
    intro ln out hnl hbound hres
    by_cases hfit : ln.length ≤ length - tab
    · rw [split_go_eq_fits hfit] at hres
      obtain rfl := Option.some.inj (Option.some.inj hres)
      exact @wordsS_replicate (fun c => c == ' ' || c == '\n') (by decide) tab ln
    · have hlpos : 0 < ln.length := by omega
      by_cases hL0 : length - tab = 0
      · rw [split_go_stall hL0 (by intro he; rw [he] at hlpos; simp at hlpos) (f + 1)] at hres
        exact Option.noConfusion hres
      · have hL : 1 ≤ length - tab := by omega
        have hLlt : length - tab < ln.length := by omega
        have htl : (ln.take (length - tab)).length = length - tab := by
          rw [List.length_take]
          omega
        cases hrf : rfindSpace (ln.take (length - tab)) with
        | none =>
          rw [split_go_eq_hard hfit hrf] at hres
          have hnospace : ∀ c ∈ ln.take (length - tab), c ≠ ' ' := rfindSpace_none hrf
          cases hrec : split_go length tab f (ln.drop (length - tab)) with
          | none =>
            rw [hrec] at hres
            exact Option.noConfusion hres
          | some o =>
            cases o with
            | none =>
              rw [hrec] at hres
              exact Option.noConfusion (Option.some.inj hres)
            | some rest =>
              rw [hrec] at hres
              obtain rfl := Option.some.inj (Option.some.inj hres)
              have htake_ne : ∀ x ∈ ln.take (length - tab),
                  ((fun c => c == ' ' || c == '\n') x) = false := by
                intro x hx
                have h1 : x ≠ ' ' := hnospace x hx
                have h2 : x ≠ '\n' := hnl x (List.take_subset _ _ hx)
                simp [h1, h2]
              by_cases hsp : ln[length - tab] = ' '
              · have hdropL : ln.drop (length - tab) = ' ' :: ln.drop (length - tab + 1) := by
                  rw [List.drop_eq_getElem_cons hLlt, hsp]
                have hdec : ln = ln.take (length - tab) ++ ' ' :: ln.drop (length - tab + 1) := by
                  conv_lhs => rw [← List.take_append_drop (length - tab) ln]
                  rw [hdropL]
                have htake_ne_nil : ln.take (length - tab) ≠ [] := by
                  intro he
                  rw [he] at htl
                  simp at htl
                  omega
                have hsplit : wordsNL ln
                    = ln.take (length - tab) :: wordsNL (ln.drop (length - tab + 1)) := by
                  conv_lhs => rw [hdec]
                  exact wordsS_sepFree_append htake_ne htake_ne_nil (by decide) _
                have hnl' : ∀ c ∈ ln.drop (length - tab), c ≠ '\n' :=
                  fun c hcc => hnl c (List.drop_subset _ _ hcc)
                have hwdrop : wordsNL (ln.drop (length - tab))
                    = wordsNL (ln.drop (length - tab + 1)) := by
                  rw [hdropL]
                  exact @wordsS_cons_sep (fun c => c == ' ' || c == '\n') ' ' (by decide) _
                have hbound' : ∀ w ∈ wordsNL (ln.drop (length - tab)),
                    w.length ≤ length - tab := by
                  intro w hw
                  apply hbound
                  rw [hsplit]
                  rw [hwdrop] at hw
                  exact List.mem_cons_of_mem _ hw
                have hIH := ih (ln.drop (length - tab)) rest hnl' hbound' hrec
                rw [List.append_assoc]
                rw [show wordsNL (List.replicate tab ' ' ++ (ln.take (length - tab) ++ '\n' :: rest))
                    = wordsNL (ln.take (length - tab) ++ '\n' :: rest) from
                  @wordsS_replicate (fun c => c == ' ' || c == '\n') (by decide) tab _]
                rw [show wordsNL (ln.take (length - tab) ++ '\n' :: rest)
                    = ln.take (length - tab) :: wordsNL rest from
                  wordsS_sepFree_append htake_ne htake_ne_nil (by decide) rest]
                rw [hIH, hwdrop, hsplit]
              · exfalso
                have hcne : ln[length - tab] ≠ '\n' := hnl _ (List.getElem_mem _)
                have hq : ∀ x ∈ ln.take (length - tab) ++ [ln[length - tab]],
                    (fun c => !((fun c => c == ' ' || c == '\n') c)) x = true := by
                  intro x hx
                  rcases List.mem_append.1 hx with h1 | h1
                  · simp [htake_ne x h1]
                  · have h2 : x = ln[length - tab] := by simpa using h1
                    subst h2
                    simp [hsp, hcne]
                have hdec2 : ln = (ln.take (length - tab) ++ [ln[length - tab]])
                    ++ ln.drop (length - tab + 1) := by
                  conv_lhs => rw [← List.take_append_drop (length - tab) ln]
                  rw [List.drop_eq_getElem_cons hLlt]
                  simp
                have htw : ln.takeWhile (fun c => !((fun c => c == ' ' || c == '\n') c))
                    = (ln.take (length - tab) ++ [ln[length - tab]])
                      ++ (ln.drop (length - tab + 1)).takeWhile
                          (fun c => !((fun c => c == ' ' || c == '\n') c)) := by
                  conv_lhs => rw [hdec2]
                  exact takeWhile_append_all hq _
                have hlw : length - tab + 1
                    ≤ (ln.takeWhile (fun c => !((fun c => c == ' ' || c == '\n') c))).length := by
                  rw [htw]
                  simp only [List.length_append, List.length_take, List.length_singleton]
                  omega
                have hmem : ln.takeWhile (fun c => !((fun c => c == ' ' || c == '\n') c))
                    ∈ wordsNL ln :=
                  takeWhile_mem_wordsS (by
                    intro he
                    rw [he] at hlw
                    simp at hlw)
                have hb := hbound _ hmem
                omega
        | some s =>
          rw [split_go_eq_space hfit hrf] at hres
          obtain ⟨hslt, hsval⟩ := rfindSpace_some hrf
          rw [htl] at hslt
          have hsval' : ln[s]? = some ' ' := by
            rw [← List.getElem?_take_of_lt hslt]
            exact hsval
          cases hj : justify_to_length (ln.take s) (length - tab) with
          | none =>
            rw [hj] at hres
            exact Option.noConfusion (Option.some.inj hres)
          | some j =>
            rw [hj] at hres
            cases hrec : split_go length tab f (ln.drop (s + 1)) with
            | none =>
              rw [hrec] at hres
              exact Option.noConfusion hres
            | some o =>
              cases o with
              | none =>
                rw [hrec] at hres
                exact Option.noConfusion (Option.some.inj hres)
              | some rest =>
                rw [hrec] at hres
                obtain rfl := Option.some.inj (Option.some.inj hres)
                have hdec := eq_take_cons_drop hsval'
                have hsplit : wordsNL ln = wordsNL (ln.take s) ++ wordsNL (ln.drop (s + 1)) := by
                  conv_lhs => rw [hdec]
                  exact @wordsS_append_sep (fun c => c == ' ' || c == '\n') ' ' (by decide) _ _
                have hnl' : ∀ c ∈ ln.drop (s + 1), c ≠ '\n' :=
                  fun c hcc => hnl c (List.drop_subset _ _ hcc)
                have hbound' : ∀ w ∈ wordsNL (ln.drop (s + 1)), w.length ≤ length - tab := by
                  intro w hw
                  apply hbound
                  rw [hsplit]
                  exact List.mem_append_right _ hw
                have hIH := ih (ln.drop (s + 1)) rest hnl' hbound' hrec
                have hjw : wordsNL j = wordsNL (ln.take s) := by
                  refine justify_wordsS (fun c => c == ' ' || c == '\n') (by decide)
                    (ln.take s) ?_ (length - tab) j hj
                  intro c hcmem hctrue
                  have h1 : c ≠ '\n' := hnl c (List.take_subset _ _ hcmem)
                  simp at hctrue
                  rcases hctrue with h2 | h2
                  · exact h2
                  · exact absurd h2 h1
                rw [List.append_assoc]
                rw [show wordsNL (List.replicate tab ' ' ++ (j ++ '\n' :: rest))
                    = wordsNL (j ++ '\n' :: rest) from
                  @wordsS_replicate (fun c => c == ' ' || c == '\n') (by decide) tab _]
                rw [show wordsNL (j ++ '\n' :: rest) = wordsNL j ++ wordsNL rest from
                  @wordsS_append_sep (fun c => c == ' ' || c == '\n') '\n' (by decide) _ _]
                rw [hjw, hIH, hsplit]

/-- C7 counterexample: a single word longer than the content width is hard-cut
mid-word, so the wrapped output's word sequence differs from the input's. -/
theorem wrap_hard_cut_cex :
    split_line_to_length (("abcdef").toList) 5 1 = some (some ((" abcd\n ef").toList)) ∧
    wordsNL ((" abcd\n ef").toList) ≠ wordsOf (("abcdef").toList) := by decide

/-- C7 (amended): justification preserves the word sequence of any line, and
wrapping preserves it for every newline-free text none of whose words exceeds
the content width (so that the hard cut can only fall on a word boundary). -/
theorem words_preserved_justify_and_wrap :
    (∀ (line : List Char) (len : Nat) (out : List Char),
      justify_to_length line len = some out → wordsOf out = wordsOf line) ∧
    (∀ (line : List Char) (len tab : Nat) (out : List Char),
      (∀ c ∈ line, c ≠ '\n') →
      (∀ w ∈ wordsNL line, w.length ≤ len - tab) →
      split_line_to_length line len tab = some (some out) →
      wordsNL out = wordsNL line) := by
  constructor
  · intro line len out hres
    exact justify_wordsS (fun c => c == ' ') (by decide) line
      (fun c _ hpc => by simpa using hpc) len out hres
  · intro line len tab out hnl hbound hres
    exact split_go_wordsNL len tab (line.length + 1) line out hnl hbound hres

/-- C7 witness. -/
theorem words_preserved_justify_and_wrap_witness :
    (justify_to_length (("aa bb").toList) 7 = some (("aa  bb").toList) ∧
      wordsOf (("aa  bb").toList) = wordsOf (("aa bb").toList)) ∧
    ((∀ c ∈ ("aa bb cc dd").toList, c ≠ '\n') ∧
      (∀ w ∈ wordsNL (("aa bb cc dd").toList), w.length ≤ 9 - 2) ∧
      split_line_to_length (("aa bb cc dd").toList) 9 2
        = some (some (("  aa  bb\n  cc dd").toList)) ∧
      wordsNL (("  aa  bb\n  cc dd").toList) = wordsNL (("aa bb cc dd").toList)) :=
  ⟨⟨by decide, words_preserved_justify_and_wrap.1 (("aa bb").toList) 7
      (("aa  bb").toList) (by decide)⟩,
    ⟨by decide, by decide, by decide,
      words_preserved_justify_and_wrap.2 (("aa bb cc dd").toList) 9 2
        (("  aa  bb\n  cc dd").toList) (by decide) (by decide) (by decide)⟩⟩

end NapSATDoc
